import Mathlib

/-!
Verification of the delta composition and application engine
(`src/mercurial-types/src/delta.rs`).

The embedding models byte texts as `List Nat`, `usize` offsets as `Nat`
(offsets in this code never approach `2^64`, so wraparound is immaterial),
and `isize` length changes as `Int`.  Rust's in-place mutation of
`Fragment::split` is modelled by returning the mutated head together with
the split-off tail.  The `assert!(off <= frag.start)` in `apply` is
modelled by returning `Option`: `none` corresponds to the assertion
failing.  Rust slice expressions `&text[a..b]` are modelled with
truncating `take`/`drop` (`seg`); theorems that depend on slice contents
carry explicit in-bounds hypotheses, matching the spec's caveat that
out-of-bounds fragments have unspecified behaviour.
-/

namespace Mononoke

/-- A single contiguous modified region of text: replace bytes
`[start, end)` with `content`.  Mirrors `struct Fragment`. -/
structure Fragment where
  start : Nat
  «end» : Nat
  content : List Nat
deriving DecidableEq

namespace Fragment

/-- `Fragment::post_end`: end offset of the content after application. -/
def postEnd (f : Fragment) : Nat := f.start + f.content.length

/-- `Fragment::length_change`: signed change in text length caused by this
fragment.  (The Rust computes `end - start` in `usize`; for the valid
fragments the code operates on, `start ≤ end`, so truncating `Nat`
subtraction is exact.) -/
def lengthChange (f : Fragment) : Int :=
  (f.content.length : Int) - ((f.«end» - f.start : Nat) : Int)

/-- `Fragment::contains_offset`: post-apply containment. -/
def containsOffset (f : Fragment) (offset : Nat) : Prop :=
  f.start ≤ offset ∧ offset < f.postEnd

instance (f : Fragment) (offset : Nat) : Decidable (f.containsOffset offset) :=
  inferInstanceAs (Decidable (f.start ≤ offset ∧ offset < f.postEnd))

/-- `Fragment::split`: split at a post-apply offset.  The Rust mutates
`self` into the head and returns `Some(tail)`; here we return
`some (head, tail)`.  `none` means "no split, fragment unmodified". -/
def split (f : Fragment) (a : Nat) : Option (Fragment × Fragment) :=
  if f.containsOffset a then
    let s := min f.«end» a
    some ({ start := f.start, «end» := s, content := f.content.take (a - f.start) },
          { start := s, «end» := f.«end», content := f.content.drop (a - f.start) })
  else
    none

end Fragment

/-- Structured error from `Delta::verify` / `Delta::new`
(`ErrorKind::InvalidFragmentList`): either fragment `index` has
`start > end`, or fragment `index` starts before the previous fragment's
end (`overlap index prevEnd start`). -/
inductive VerifyError where
  | invalidFragment : Nat → VerifyError
  | overlap : Nat → Nat → Nat → VerifyError
deriving DecidableEq

/-- A validated, ordered, non-overlapping sequence of Fragments.
Mirrors `struct Delta`. -/
structure Delta where
  frags : List Fragment
deriving DecidableEq

namespace Delta

/-- The verification loop of `Delta::verify`, carrying the previous
fragment and the current index.  At each fragment the per-fragment check
(`start ≤ end`, `Fragment::verify`) runs before the overlap check,
exactly as in the Rust. -/
def verifyFrom : Option Fragment → Nat → List Fragment → Except VerifyError Unit
  | _, _, [] => Except.ok ()
  | prev, i, f :: rest =>
    if f.«end» < f.start then Except.error (VerifyError.invalidFragment i)
    else
      match prev with
      | some p =>
        if f.start < p.«end» then Except.error (VerifyError.overlap i p.«end» f.start)
        else verifyFrom (some f) (i + 1) rest
      | none => verifyFrom (some f) (i + 1) rest

/-- `Delta::verify`. -/
def verify (frags : List Fragment) : Except VerifyError Unit :=
  verifyFrom none 0 frags

/-- `Delta::new`: verify, then construct. -/
def new (frags : List Fragment) : Except VerifyError Delta :=
  (verify frags).map fun _ => ⟨frags⟩

/-- `Delta::fragments`. -/
def fragments (d : Delta) : List Fragment := d.frags

/-- `Delta::default`: the empty Delta. -/
def default : Delta := ⟨[]⟩

end Delta

/-- `adjust`: subtract the signed `adjustment` from the unsigned `offset`.
The Rust subtraction `offset - adjustment as usize` underflows (panics in
debug builds) if the adjustment exceeds the offset; `Nat` subtraction
truncates instead.  The theorems below establish that on the inputs the
code is run on, no truncation occurs. -/
def adjust (offset : Nat) (adjustment : Int) : Nat :=
  if adjustment < 0 then offset + (-adjustment).toNat
  else offset - adjustment.toNat

/-- The slice `&text[a..b]` (truncating at the end of `text`). -/
def seg (text : List Nat) (a b : Nat) : List Nat := (text.take b).drop a

/-- The fragment loop of `apply`: cursor `off` over the pre-apply text.
`none` models the `assert!(off <= frag.start)` failing.  The chunk list
of the Rust is concatenated on the fly (same result). -/
def applyFrags (text : List Nat) : Nat → List Fragment → Option (List Nat)
  | off, [] => some (text.drop off)
  | off, f :: fs =>
    if off ≤ f.start then
      (applyFrags text f.«end» fs).map fun rest => seg text off f.start ++ f.content ++ rest
    else
      none

/-- `apply`: apply a Delta to an input text. -/
def apply (text : List Nat) (delta : Delta) : Option (List Nat) :=
  applyFrags text 0 delta.frags

/-- `take_frags`: move fragments from `src` to the destination until
`cutoff` (a post-`src`-prefix coordinate) is reached, splitting a
straddling fragment; returns `(taken, remaining src, updated cumulative
length change)`.  The Rust's `dst : Option<&mut Vec<_>>` is modelled by
always returning the taken fragments; the caller drops them when the
Rust passes `None`. -/
def takeFrags : List Fragment → Nat → Int → List Fragment × List Fragment × Int
  | [], _, cum => ([], [], cum)
  | g :: rest, cutoff, cum =>
    let adjusted := adjust cutoff cum
    if g.postEnd > adjusted then
      match g.split adjusted with
      | some (head, tail) => ([head], tail :: rest, cum + head.lengthChange)
      | none => ([], g :: rest, cum)
    else
      let r := takeFrags rest cutoff (cum + g.lengthChange)
      (g :: r.1, r.2.1, r.2.2)

/-- The loop of `combine`: `R` is the put-back iterator over the first
Delta's fragments, `cum` the cumulative length change of `first`
fragments consumed so far.  The trailing `combined.extend(first_frags)`
is the `[]` case. -/
def combineFrags : List Fragment → List Fragment → Int → List Fragment
  | R, [], _ => R
  | R, f :: S, cum =>
    let p1 := takeFrags R f.start cum
    let p2 := takeFrags p1.2.1 f.«end» p1.2.2
    p1.1 ++ ({ start := adjust f.start p1.2.2, «end» := adjust f.«end» p2.2.2,
               content := f.content } :: combineFrags p2.2.1 S p2.2.2)

/-- `combine`: compose two Deltas. -/
def combine (first second : Delta) : Delta :=
  ⟨combineFrags first.frags second.frags 0⟩

/-- `combine_chain`: left fold of `combine` from the empty Delta. -/
def combineChain (deltas : List Delta) : Delta :=
  deltas.foldl combine Delta.default

/-- `apply_chain`. -/
def applyChain (text : List Nat) (deltas : List Delta) : Option (List Nat) :=
  apply text (combineChain deltas)

/-! ### Proof-side definitions -/

/-- Total version of the `apply` loop (no assertion check); related to
`applyFrags` by `applyFrags_eq_applyT`. -/
def applyT (text : List Nat) : Nat → List Fragment → List Nat
  | off, [] => text.drop off
  | off, f :: fs => seg text off f.start ++ f.content ++ applyT text f.«end» fs

/-- The chunks emitted for a fragment list, without the final tail. -/
def outF (text : List Nat) : Nat → List Fragment → List Nat
  | _, [] => []
  | off, f :: fs => seg text off f.start ++ f.content ++ outF text f.«end» fs

/-- Cursor position after processing a fragment list. -/
def endCur : Nat → List Fragment → Nat
  | off, [] => off
  | _, f :: fs => endCur f.«end» fs

/-- Total length change of a fragment list. -/
def lcSum (l : List Fragment) : Int := (l.map Fragment.lengthChange).sum

/-- The Delta structural invariants: sorted and non-overlapping
(`fᵢ.end ≤ fᵢ₊₁.start`) and each fragment has `start ≤ end`. -/
def ValidFrags (l : List Fragment) : Prop :=
  List.Chain' (fun a b => a.«end» ≤ b.start) l ∧ ∀ f ∈ l, f.start ≤ f.«end»

/-- Validity of a Delta. -/
def ValidDelta (d : Delta) : Prop := ValidFrags d.frags

/-- Every fragment starts at or after `off`. -/
def LB (off : Nat) (l : List Fragment) : Prop := ∀ f ∈ l, off ≤ f.start

/-- Every fragment ends at or before `B`. -/
def EndsLe (l : List Fragment) (B : Nat) : Prop := ∀ f ∈ l, f.«end» ≤ B

/-- A Delta is in-bounds for a text: every fragment's `end` is at most
the text's length. -/
def InBounds (d : Delta) (t : List Nat) : Prop := EndsLe d.frags t.length

instance instChainDec : ∀ (l : List Fragment),
    Decidable (List.Chain' (fun a b => a.«end» ≤ b.start) l)
  | [] => isTrue (by simp)
  | [_] => isTrue (by simp)
  | a :: b :: l =>
    haveI := instChainDec (b :: l)
    decidable_of_iff _ List.chain'_cons.symm

instance (l : List Fragment) : Decidable (ValidFrags l) :=
  inferInstanceAs (Decidable (List.Chain' _ l ∧ ∀ f ∈ l, f.start ≤ f.«end»))

instance (d : Delta) : Decidable (ValidDelta d) :=
  inferInstanceAs (Decidable (ValidFrags d.frags))

instance (d : Delta) (t : List Nat) : Decidable (InBounds d t) :=
  inferInstanceAs (Decidable (∀ f ∈ d.frags, f.«end» ≤ t.length))

/-- What a `Delta::new` failure reports: the zero-based index of the
first offending fragment (everything before it satisfies the Delta
invariants) together with the reason — either `start > end` for that
fragment, or its start overlapping the previous fragment's end. -/
def ErrSpec (F : List Fragment) : VerifyError → Prop
  | VerifyError.invalidFragment i =>
      ValidFrags (F.take i) ∧ ∃ f, F[i]? = some f ∧ f.«end» < f.start
  | VerifyError.overlap i pe s =>
      1 ≤ i ∧ ValidFrags (F.take i) ∧
      (∃ p, F[i - 1]? = some p ∧ p.«end» = pe) ∧
      (∃ f, F[i]? = some f ∧ f.start = s ∧ f.start ≤ f.«end» ∧ s < pe)

/-- The first fragment of `F` (if any) starts at or after `e`. -/
def HeadLink (e : Nat) (F : List Fragment) : Prop :=
  ∀ h, F.head? = some h → e ≤ h.start

/-- The previous fragment (if any) does not overlap the head of `F`. -/
def PrevLink (prev : Option Fragment) (F : List Fragment) : Prop :=
  ∀ p, prev = some p → HeadLink p.«end» F

/-- Relative error characterization for the verification loop starting at
index `i` with previous fragment `prev`. -/
def ErrAt (prev : Option Fragment) (i : Nat) (F : List Fragment) : VerifyError → Prop
  | VerifyError.invalidFragment j =>
      i ≤ j ∧ ValidFrags (F.take (j - i)) ∧
      (∃ f, F[j - i]? = some f ∧ f.«end» < f.start) ∧
      (j ≠ i → PrevLink prev F)
  | VerifyError.overlap j pe s =>
      i ≤ j ∧ ValidFrags (F.take (j - i)) ∧
      (∃ f, F[j - i]? = some f ∧ f.start = s ∧ f.start ≤ f.«end» ∧ s < pe) ∧
      (j ≠ i → PrevLink prev F) ∧
      (if j = i then ∃ p, prev = some p ∧ p.«end» = pe
       else ∃ p, F[j - 1 - i]? = some p ∧ p.«end» = pe)

/-! ### Basic lemmas: `adjust`, `seg`, validity, `applyT` -/

theorem adjust_cast (offset : Nat) (a : Int) (h : a ≤ (offset : Int)) :
    (adjust offset a : Int) = (offset : Int) - a := by
  unfold adjust; split <;> omega

theorem seg_len {t : List Nat} {b : Nat} (a : Nat) (h : b ≤ t.length) :
    (seg t a b).length = b - a := by
  simp [seg]; omega

theorem seg_self (t : List Nat) (a : Nat) : seg t a a = [] := by
  apply List.drop_eq_nil_of_le; simp

theorem seg_eq_drop_take (t : List Nat) (a b : Nat) :
    seg t a b = (t.drop a).take (b - a) := by
  unfold seg; rw [List.drop_take]

theorem drop_eq_seg_append {a b : Nat} (h : a ≤ b) (t : List Nat) :
    t.drop a = seg t a b ++ t.drop b := by
  simp only [seg]
  rcases le_or_lt b t.length with hb | hb
  · conv_lhs => rw [← List.take_append_drop b t]
    rw [List.drop_append_of_le_length (by simp; omega)]
  · rw [List.take_of_length_le hb.le, List.drop_eq_nil_of_le hb.le, List.append_nil]

theorem seg_append_seg {a b c : Nat} (hab : a ≤ b) (hbc : b ≤ c) (t : List Nat) :
    seg t a b ++ seg t b c = seg t a c := by
  simp only [seg]
  rcases le_or_lt b t.length with hb | hb
  · have h1 : t.take c = t.take b ++ (t.take c).drop b := by
      conv_lhs => rw [← List.take_append_drop b (t.take c)]
      rw [List.take_take, min_eq_left hbc]
    conv_rhs => rw [h1]
    rw [List.drop_append_of_le_length (by simp; omega)]
  · have h2 : (t.take c).drop b = [] := by
      apply List.drop_eq_nil_of_le; simp; omega
    have h3 : t.take b = t := List.take_of_length_le hb.le
    have h4 : t.take c = t := List.take_of_length_le (by omega)
    rw [h2, h3, h4, List.append_nil]

theorem ValidFrags.tail {f : Fragment} {fs : List Fragment}
    (h : ValidFrags (f :: fs)) : ValidFrags fs :=
  ⟨h.1.tail, fun g hg => h.2 g (List.mem_cons_of_mem f hg)⟩

theorem ValidFrags.headWF {f : Fragment} {fs : List Fragment}
    (h : ValidFrags (f :: fs)) : f.start ≤ f.«end» :=
  h.2 f (List.mem_cons_self f fs)

theorem ValidFrags.lb {f : Fragment} {fs : List Fragment}
    (h : ValidFrags (f :: fs)) : LB f.«end» fs := by
  induction fs generalizing f with
  | nil => intro g hg; cases hg
  | cons g gs ih =>
    intro x hx
    have hfg : f.«end» ≤ g.start := List.chain'_cons.mp h.1 |>.1
    have hg : ValidFrags (g :: gs) := h.tail
    rcases List.mem_cons.mp hx with rfl | hx2
    · exact hfg
    · exact le_trans hfg (le_trans hg.headWF (ih hg x hx2))

theorem applyT_append (t : List Nat) (F G : List Fragment) : ∀ off,
    applyT t off (F ++ G) = outF t off F ++ applyT t (endCur off F) G := by
  induction F with
  | nil => intro off; simp [outF, endCur]
  | cons f fs ih => intro off; simp [applyT, outF, endCur, ih]

theorem applyFrags_eq_applyT (t : List Nat) (F : List Fragment) : ∀ off,
    ValidFrags F → LB off F → applyFrags t off F = some (applyT t off F) := by
  induction F with
  | nil => intro off _ _; rfl
  | cons f fs ih =>
    intro off hv hlb
    have h1 : off ≤ f.start := hlb f (List.mem_cons_self f fs)
    simp [applyFrags, applyT, h1, ih f.«end» hv.tail hv.lb]

theorem applyT_length (t : List Nat) (F : List Fragment) : ∀ off,
    ValidFrags F → LB off F → EndsLe F t.length → off ≤ t.length →
    ((applyT t off F).length : Int) = (t.length : Int) - off + lcSum F := by
  induction F with
  | nil =>
    intro off _ _ _ hoff
    simp [applyT, lcSum]
    omega
  | cons f fs ih =>
    intro off hv hlb hends hoff
    have h1 : off ≤ f.start := hlb f (List.mem_cons_self f fs)
    have h2 : f.start ≤ f.«end» := hv.headWF
    have h3 : f.«end» ≤ t.length := hends f (List.mem_cons_self f fs)
    have h4 := ih f.«end» hv.tail hv.lb
      (fun g hg => hends g (List.mem_cons_of_mem f hg)) h3
    have h5 : (seg t off f.start).length = f.start - off :=
      seg_len off (le_trans h2 h3)
    simp only [applyT, List.length_append, h5, lcSum, List.map_cons, List.sum_cons,
      Fragment.lengthChange]
    simp only [lcSum] at h4
    omega

theorem validFrags_nil : ValidFrags [] := by simp [ValidFrags]

theorem validFrags_cons {f : Fragment} {l : List Fragment}
    (hwf : f.start ≤ f.«end») (hl : ValidFrags l)
    (hh : ∀ h ∈ l.head?, f.«end» ≤ h.start) : ValidFrags (f :: l) := by
  refine ⟨List.chain'_cons'.mpr ⟨hh, hl.1⟩, ?_⟩
  intro g hg
  rcases List.mem_cons.mp hg with rfl | hg2
  · exact hwf
  · exact hl.2 g hg2

/-! ### The `take_frags` loop: structural postconditions

Throughout, the loop state is tracked by a pair of cursors `roff`
(pre-apply, over the first Delta's input text) and `soff` (post-apply,
over the first Delta's output text); the cumulative length change fed to
`take_frags` is exactly `soff - roff`. -/

theorem headLink_of_LB {e : Nat} {l : List Fragment} (h : LB e l) :
    ∀ x ∈ l.head?, e ≤ x.start := by
  intro x hx
  cases l with
  | nil => simp at hx
  | cons y ys =>
    simp only [List.head?_cons, Option.mem_def, Option.some.injEq] at hx
    subst hx
    exact h y (List.mem_cons_self y ys)

theorem takeFrags_struct (R : List Fragment) : ∀ (roff soff c : Nat)
    (tk R1 : List Fragment) (before : Int),
    ValidFrags R → LB roff R → soff ≤ c →
    takeFrags R c ((soff : Int) - roff) = (tk, R1, before) →
    ((adjust c before : Int) = (c : Int) - before) ∧
    roff ≤ adjust c before ∧
    ValidFrags tk ∧ LB roff tk ∧ EndsLe tk (adjust c before) ∧
    endCur roff tk ≤ adjust c before ∧
    ValidFrags R1 ∧ LB (adjust c before) R1 ∧
    (∀ B, EndsLe R B → EndsLe tk B ∧ EndsLe R1 B) := by
  induction R with
  | nil =>
    intro roff soff c tk R1 before _ _ hsc heq
    simp only [takeFrags, Prod.mk.injEq] at heq
    obtain ⟨rfl, rfl, rfl⟩ := heq
    have hx := adjust_cast c ((soff : Int) - roff) (by omega)
    refine ⟨hx, by omega, validFrags_nil, by simp [LB], by simp [EndsLe], ?_,
      validFrags_nil, by simp [LB], fun B _ => ⟨by simp [EndsLe], by simp [EndsLe]⟩⟩
    show roff ≤ adjust c ((soff : Int) - roff)
    omega
  | cons g rest ih =>
    intro roff soff c tk R1 before hv hlb hsc heq
    have hg_lb : roff ≤ g.start := hlb g (List.mem_cons_self g rest)
    have hg_wf : g.start ≤ g.«end» := hv.headWF
    have hlb_rest : LB g.«end» rest := hv.lb
    have hadj : ((adjust c ((soff : Int) - roff)) : Int) = (c : Int) - ((soff : Int) - roff) :=
      adjust_cast c _ (by omega)
    simp only [takeFrags] at heq
    by_cases hout : g.postEnd > adjust c ((soff : Int) - roff)
    · rw [if_pos hout] at heq
      by_cases hcont : g.containsOffset (adjust c ((soff : Int) - roff))
      · -- the straddling fragment is split
        rw [Fragment.split, if_pos hcont] at heq
        simp only [Prod.mk.injEq] at heq
        obtain ⟨rfl, rfl, rfl⟩ := heq
        set a := adjust c ((soff : Int) - roff) with ha_def
        have hcont' : g.start ≤ a ∧ a < g.postEnd := hcont
        have hpe : g.postEnd = g.start + g.content.length := rfl
        have hlen : (g.content.take (a - g.start)).length = a - g.start := by
          rw [List.length_take]
          omega
        have hm_ge : g.start ≤ min g.«end» a := le_min hg_wf hcont'.1
        have hm_le : min g.«end» a ≤ g.«end» := min_le_left _ _
        have hm_lea : min g.«end» a ≤ a := min_le_right _ _
        have hlc : Fragment.lengthChange ⟨g.start, min g.«end» a, g.content.take (a - g.start)⟩
            = (a : Int) - (min g.«end» a : Int) := by
          unfold Fragment.lengthChange
          dsimp only
          rw [hlen]
          omega
        have hbef : ((soff : Int) - roff) + Fragment.lengthChange
            ⟨g.start, min g.«end» a, g.content.take (a - g.start)⟩
            = (c : Int) - (min g.«end» a : Int) := by
          rw [hlc]; omega
        have hx : (adjust c (((soff : Int) - roff) + Fragment.lengthChange
            ⟨g.start, min g.«end» a, g.content.take (a - g.start)⟩) : Int)
            = ((min g.«end» a : Nat) : Int) := by
          rw [adjust_cast _ _ (by omega), hbef]
          omega
        have hxn : adjust c (((soff : Int) - roff) + Fragment.lengthChange
            ⟨g.start, min g.«end» a, g.content.take (a - g.start)⟩) = min g.«end» a := by
          omega
        refine ⟨by omega, by omega, ?_, ?_, ?_, ?_, ?_, ?_, ?_⟩
        · refine ⟨List.chain'_singleton _, ?_⟩
          intro f hf
          rcases List.mem_singleton.mp hf with rfl
          exact hm_ge
        · intro f hf
          rcases List.mem_singleton.mp hf with rfl
          exact hg_lb
        · intro f hf
          rcases List.mem_singleton.mp hf with rfl
          dsimp only
          omega
        · simp only [endCur]
          omega
        · refine validFrags_cons hm_le hv.tail (headLink_of_LB hlb_rest)
        · intro f hf
          rcases List.mem_cons.mp hf with rfl | hf2
          · dsimp only
            omega
          · have := hlb_rest f hf2
            omega
        · intro B hB
          have hgB : g.«end» ≤ B := hB g (List.mem_cons_self g rest)
          constructor
          · intro f hf
            rcases List.mem_singleton.mp hf with rfl
            dsimp only
            omega
          · intro f hf
            rcases List.mem_cons.mp hf with rfl | hf2
            · dsimp only
              omega
            · exact hB f (List.mem_cons_of_mem g hf2)
      · -- the head fragment starts after the cutoff: put back unchanged
        rw [Fragment.split, if_neg hcont] at heq
        simp only [Prod.mk.injEq] at heq
        obtain ⟨rfl, rfl, rfl⟩ := heq
        have hcont' : ¬ (g.start ≤ adjust c ((soff : Int) - roff) ∧
            adjust c ((soff : Int) - roff) < g.postEnd) := hcont
        have hlt : adjust c ((soff : Int) - roff) < g.start := by
          by_contra hcon
          exact hcont' ⟨by omega, hout⟩
        refine ⟨adjust_cast c _ (by omega), by omega, validFrags_nil, by simp [LB],
          by simp [EndsLe], ?_, hv, ?_, fun B hB => ⟨by simp [EndsLe], hB⟩⟩
        · simp only [endCur]
          omega
        · intro f hf
          rcases List.mem_cons.mp hf with rfl | hf2
          · omega
          · have := hlb_rest f hf2
            omega
    · -- the head fragment lies entirely before the cutoff: take it
      rw [if_neg hout] at heq
      have hout' : g.postEnd ≤ adjust c ((soff : Int) - roff) := by omega
      have hpe : g.postEnd = g.start + g.content.length := rfl
      have hsoff' : ((soff + (g.start - roff) + g.content.length : Nat) : Int) - g.«end»
          = ((soff : Int) - roff) + g.lengthChange := by
        unfold Fragment.lengthChange
        omega
      have hsc' : soff + (g.start - roff) + g.content.length ≤ c := by
        omega
      rcases hrec : takeFrags rest c (((soff : Int) - roff) + g.lengthChange)
        with ⟨tk', R1', before'⟩
      rw [hrec] at heq
      simp only [Prod.mk.injEq] at heq
      obtain ⟨rfl, rfl, rfl⟩ := heq
      rw [← hsoff'] at hrec
      obtain ⟨ihx, ihge, ihvtk, ihlbtk, ihendtk, ihcur, ihvR1, ihlbR1, ihpres⟩ :=
        ih g.«end» (soff + (g.start - roff) + g.content.length) c tk' R1' before'
          hv.tail hlb_rest hsc' hrec
      refine ⟨ihx, by omega, ?_, ?_, ?_, ?_, ihvR1, ihlbR1, ?_⟩
      · exact validFrags_cons hg_wf ihvtk (headLink_of_LB ihlbtk)
      · intro f hf
        rcases List.mem_cons.mp hf with rfl | hf2
        · exact hg_lb
        · exact le_trans (le_trans hg_lb hg_wf) (ihlbtk f hf2)
      · intro f hf
        rcases List.mem_cons.mp hf with rfl | hf2
        · omega
        · exact ihendtk f hf2
      · show endCur g.«end» tk' ≤ _
        exact ihcur
      · intro B hB
        have hgB : g.«end» ≤ B := hB g (List.mem_cons_self g rest)
        have hrest : EndsLe rest B := fun f hf => hB f (List.mem_cons_of_mem g hf)
        obtain ⟨h1, h2⟩ := ihpres B hrest
        refine ⟨?_, h2⟩
        intro f hf
        rcases List.mem_cons.mp hf with rfl | hf2
        · exact hgB
        · exact h1 f hf2

theorem takeFrags_sem (R : List Fragment) : ∀ (roff soff c : Nat) (t T : List Nat)
    (tk R1 : List Fragment) (before : Int),
    ValidFrags R → LB roff R → EndsLe R t.length →
    soff ≤ c → c ≤ T.length → roff ≤ t.length →
    T.drop soff = applyT t roff R →
    takeFrags R c ((soff : Int) - roff) = (tk, R1, before) →
    T.drop c = applyT t (adjust c before) R1 ∧
    seg T soff c = outF t roff tk ++ seg t (endCur roff tk) (adjust c before) ∧
    adjust c before ≤ t.length := by
  induction R with
  | nil =>
    intro roff soff c t T tk R1 before _ _ _ hsc hcT hrt hHT heq
    simp only [takeFrags, Prod.mk.injEq] at heq
    obtain ⟨rfl, rfl, rfl⟩ := heq
    have hadj := adjust_cast c ((soff : Int) - roff) (by omega)
    simp only [applyT] at hHT
    have hlen := congrArg List.length hHT
    simp only [List.length_drop] at hlen
    refine ⟨?_, ?_, by omega⟩
    · simp only [applyT]
      calc T.drop c = (T.drop soff).drop (c - soff) := by
            rw [List.drop_drop]; congr 1; omega
        _ = (t.drop roff).drop (c - soff) := by rw [hHT]
        _ = t.drop (roff + (c - soff)) := List.drop_drop _ _ _
        _ = t.drop (adjust c ((soff : Int) - roff)) := by congr 1; omega
    · simp only [outF, endCur, List.nil_append]
      rw [seg_eq_drop_take, seg_eq_drop_take, hHT]
      congr 1
      omega
  | cons g rest ih =>
    intro roff soff c t T tk R1 before hv hlb hends hsc hcT hrt hHT heq
    have hg_lb : roff ≤ g.start := hlb g (List.mem_cons_self g rest)
    have hg_wf : g.start ≤ g.«end» := hv.headWF
    have hlb_rest : LB g.«end» rest := hv.lb
    have hend_g : g.«end» ≤ t.length := hends g (List.mem_cons_self g rest)
    have hends_rest : EndsLe rest t.length := fun f hf => hends f (List.mem_cons_of_mem g hf)
    have hgs_le : g.start ≤ t.length := le_trans hg_wf hend_g
    have hadj : ((adjust c ((soff : Int) - roff)) : Int) = (c : Int) - ((soff : Int) - roff) :=
      adjust_cast c _ (by omega)
    have hseg_len : (seg t roff g.start).length = g.start - roff := seg_len roff hgs_le
    have hpe : g.postEnd = g.start + g.content.length := rfl
    simp only [applyT] at hHT
    simp only [takeFrags] at heq
    by_cases hout : g.postEnd > adjust c ((soff : Int) - roff)
    · rw [if_pos hout] at heq
      by_cases hcont : g.containsOffset (adjust c ((soff : Int) - roff))
      · -- the straddling fragment is split at the cutoff
        rw [Fragment.split, if_pos hcont] at heq
        simp only [Prod.mk.injEq] at heq
        obtain ⟨rfl, rfl, rfl⟩ := heq
        set a := adjust c ((soff : Int) - roff) with ha_def
        have hcont' : g.start ≤ a ∧ a < g.postEnd := hcont
        have hroff_a : roff ≤ a := le_trans hg_lb hcont'.1
        have hlen : (g.content.take (a - g.start)).length = a - g.start := by
          rw [List.length_take]; omega
        have hm_ge : g.start ≤ min g.«end» a := le_min hg_wf hcont'.1
        have hm_le : min g.«end» a ≤ g.«end» := min_le_left _ _
        have hm_lea : min g.«end» a ≤ a := min_le_right _ _
        have hlc : Fragment.lengthChange ⟨g.start, min g.«end» a, g.content.take (a - g.start)⟩
            = (a : Int) - (min g.«end» a : Int) := by
          unfold Fragment.lengthChange
          dsimp only
          rw [hlen]
          omega
        have hbef : ((soff : Int) - roff) + Fragment.lengthChange
            ⟨g.start, min g.«end» a, g.content.take (a - g.start)⟩
            = (c : Int) - (min g.«end» a : Int) := by rw [hlc]; omega
        have hxn : adjust c (((soff : Int) - roff) + Fragment.lengthChange
            ⟨g.start, min g.«end» a, g.content.take (a - g.start)⟩) = min g.«end» a := by
          have := adjust_cast c (((soff : Int) - roff) + Fragment.lengthChange
            ⟨g.start, min g.«end» a, g.content.take (a - g.start)⟩) (by omega)
          omega
        have hca : c - soff = a - roff := by omega
        refine ⟨?_, ?_, by omega⟩
        · rw [hxn]
          have hdropP : (seg t roff g.start ++ g.content).drop (a - roff)
              = g.content.drop (a - g.start) := by
            rw [List.drop_append_eq_append_drop, hseg_len,
              List.drop_eq_nil_of_le (by rw [hseg_len]; omega), List.nil_append]
            congr 1
            omega
          have hmain : T.drop c = g.content.drop (a - g.start) ++ applyT t g.«end» rest := by
            calc T.drop c = (T.drop soff).drop (c - soff) := by
                  rw [List.drop_drop]; congr 1; omega
              _ = ((seg t roff g.start ++ g.content) ++ applyT t g.«end» rest).drop (a - roff) := by
                  rw [hHT, hca]
              _ = (seg t roff g.start ++ g.content).drop (a - roff) ++ applyT t g.«end» rest := by
                  rw [List.drop_append_of_le_length (by simp [hseg_len]; omega)]
              _ = g.content.drop (a - g.start) ++ applyT t g.«end» rest := by rw [hdropP]
          rw [hmain]
          simp only [applyT]
          rw [seg_self, List.nil_append]
        · rw [hxn]
          have htakeP : (seg t roff g.start ++ g.content).take (a - roff)
              = seg t roff g.start ++ g.content.take (a - g.start) := by
            rw [List.take_append_eq_append_take, hseg_len,
              List.take_of_length_le (by rw [hseg_len]; omega)]
            congr 2
            omega
          have hmain : seg T soff c = seg t roff g.start ++ g.content.take (a - g.start) := by
            calc seg T soff c = (T.drop soff).take (c - soff) := seg_eq_drop_take T soff c
              _ = ((seg t roff g.start ++ g.content) ++ applyT t g.«end» rest).take (a - roff) := by
                  rw [hHT, hca]
              _ = (seg t roff g.start ++ g.content).take (a - roff) := by
                  rw [List.take_append_of_le_length (by simp [hseg_len]; omega)]
              _ = seg t roff g.start ++ g.content.take (a - g.start) := htakeP
          rw [hmain]
          simp only [outF, endCur]
          rw [seg_self]
          simp
      · -- the head fragment starts after the cutoff: nothing is taken
        rw [Fragment.split, if_neg hcont] at heq
        simp only [Prod.mk.injEq] at heq
        obtain ⟨rfl, rfl, rfl⟩ := heq
        set a := adjust c ((soff : Int) - roff) with ha_def
        have hcont' : ¬ (g.start ≤ a ∧ a < g.postEnd) := hcont
        have hlt : a < g.start := by
          rcases Nat.lt_or_ge a g.start with h | h
          · exact h
          · exact absurd ⟨h, hout⟩ hcont'
        have hroff_a : roff ≤ a := by omega
        have hca : c - soff = a - roff := by omega
        refine ⟨?_, ?_, by omega⟩
        · simp only [applyT]
          have hdropseg : (seg t roff g.start).drop (a - roff) = seg t a g.start := by
            show ((t.take g.start).drop roff).drop (a - roff) = (t.take g.start).drop a
            rw [List.drop_drop]
            congr 1
            omega
          calc T.drop c = (T.drop soff).drop (a - roff) := by
                rw [List.drop_drop]; congr 1; omega
            _ = ((seg t roff g.start ++ g.content) ++ applyT t g.«end» rest).drop (a - roff) := by
                rw [hHT]
            _ = (seg t roff g.start ++ (g.content ++ applyT t g.«end» rest)).drop (a - roff) := by
                rw [List.append_assoc]
            _ = (seg t roff g.start).drop (a - roff) ++ (g.content ++ applyT t g.«end» rest) := by
                rw [List.drop_append_of_le_length (by rw [hseg_len]; omega)]
            _ = seg t a g.start ++ (g.content ++ applyT t g.«end» rest) := by rw [hdropseg]
            _ = seg t a g.start ++ g.content ++ applyT t g.«end» rest := by
                rw [List.append_assoc]
        · simp only [outF, endCur, List.nil_append]
          have htakeseg : (seg t roff g.start).take (a - roff) = seg t roff a := by
            rw [seg_eq_drop_take, seg_eq_drop_take, List.take_take]
            congr 1
            omega
          calc seg T soff c = (T.drop soff).take (a - roff) := by
                rw [seg_eq_drop_take, hca]
            _ = ((seg t roff g.start ++ g.content) ++ applyT t g.«end» rest).take (a - roff) := by
                rw [hHT]
            _ = (seg t roff g.start ++ g.content).take (a - roff) := by
                rw [List.take_append_of_le_length (by simp [hseg_len]; omega)]
            _ = (seg t roff g.start).take (a - roff) := by
                rw [List.take_append_of_le_length (by rw [hseg_len]; omega)]
            _ = seg t roff a := htakeseg
    · -- the head fragment lies entirely before the cutoff: take it
      rw [if_neg hout] at heq
      have hout' : g.postEnd ≤ adjust c ((soff : Int) - roff) := by omega
      obtain ⟨soff', hsoff_def⟩ :
          ∃ s, s = soff + (g.start - roff) + g.content.length := ⟨_, rfl⟩
      have hsoff_ge : soff ≤ soff' := by omega
      have hsoff_c : soff' ≤ c := by omega
      have hsoff'_eq : ((soff' : Nat) : Int) - g.«end» = ((soff : Int) - roff) + g.lengthChange := by
        unfold Fragment.lengthChange
        omega
      rcases hrec : takeFrags rest c (((soff : Int) - roff) + g.lengthChange)
        with ⟨tk', R1', before'⟩
      rw [hrec] at heq
      simp only [Prod.mk.injEq] at heq
      obtain ⟨rfl, rfl, rfl⟩ := heq
      rw [← hsoff'_eq] at hrec
      have hPlen : (seg t roff g.start ++ g.content).length = soff' - soff := by
        rw [List.length_append, hseg_len]; omega
      have hsplitT : T.drop soff' = applyT t g.«end» rest := by
        calc T.drop soff' = (T.drop soff).drop (soff' - soff) := by
              rw [List.drop_drop]; congr 1; omega
          _ = ((seg t roff g.start ++ g.content) ++ applyT t g.«end» rest).drop (soff' - soff) := by
              rw [hHT]
          _ = applyT t g.«end» rest := by
              rw [← hPlen, List.drop_left]
      obtain ⟨ihA, ihB, ihC⟩ := ih g.«end» soff' c t T tk' R1' before'
        hv.tail hlb_rest hends_rest hsoff_c hcT hend_g hsplitT hrec
      refine ⟨ihA, ?_, ihC⟩
      have hTsplit : T.drop soff = (seg t roff g.start ++ g.content) ++ T.drop soff' := by
        rw [hsplitT, hHT]
      have harg : c - soff - (soff' - soff) = c - soff' := by omega
      have hstep : seg T soff c = (seg t roff g.start ++ g.content) ++ seg T soff' c := by
        rw [seg_eq_drop_take T soff c, seg_eq_drop_take T soff' c, hTsplit,
          List.take_append_eq_append_take, hPlen, harg,
          List.take_of_length_le (by rw [hPlen]; omega)]
      rw [hstep, ihB]
      simp only [outF, endCur, List.append_assoc]

theorem mem_of_getLast' {l : List Fragment} {x : Fragment} (h : x ∈ l.getLast?) : x ∈ l := by
  obtain ⟨hne, rfl⟩ := List.mem_getLast?_eq_getLast h
  exact List.getLast_mem hne

theorem combineFrags_struct (S : List Fragment) : ∀ (R : List Fragment) (roff soff : Nat),
    ValidFrags R → LB roff R → ValidFrags S → LB soff S →
    ValidFrags (combineFrags R S ((soff : Int) - roff)) ∧
    LB roff (combineFrags R S ((soff : Int) - roff)) := by
  induction S with
  | nil =>
    intro R roff soff hvR hlbR _ _
    exact ⟨hvR, hlbR⟩
  | cons f S' ihS =>
    intro R roff soff hvR hlbR hvS hlbS
    have hf_lb : soff ≤ f.start := hlbS f (List.mem_cons_self f S')
    have hf_wf : f.start ≤ f.«end» := hvS.headWF
    have hlbS' : LB f.«end» S' := hvS.lb
    rcases h1 : takeFrags R f.start ((soff : Int) - roff) with ⟨tk, R1, before⟩
    obtain ⟨h1x, h1ge, h1vtk, h1lbtk, h1endtk, h1cur, h1vR1, h1lbR1, h1pres⟩ :=
      takeFrags_struct R roff soff f.start tk R1 before hvR hlbR hf_lb h1
    have hbe : before = ((f.start : Nat) : Int) - ((adjust f.start before : Nat) : Int) := by
      omega
    rcases h2 : takeFrags R1 f.«end» before with ⟨sk, R2, after⟩
    have h2' := h2
    rw [hbe] at h2'
    obtain ⟨h2x, h2ge, -, -, -, -, h2vR2, h2lbR2, -⟩ :=
      takeFrags_struct R1 (adjust f.start before) f.start f.«end» sk R2 after
        h1vR1 h1lbR1 hf_wf h2'
    have haf : after = ((f.«end» : Nat) : Int) - ((adjust f.«end» after : Nat) : Int) := by
      omega
    obtain ⟨ihv, ihlb⟩ := ihS R2 (adjust f.«end» after) f.«end» h2vR2 h2lbR2 hvS.tail hlbS'
    rw [← haf] at ihv ihlb
    have hout_eq : combineFrags R (f :: S') ((soff : Int) - roff) =
        tk ++ ({ start := adjust f.start before, «end» := adjust f.«end» after,
                 content := f.content } : Fragment) :: combineFrags R2 S' after := by
      simp only [combineFrags, h1, h2]
    rw [hout_eq]
    constructor
    · refine ⟨?_, ?_⟩
      · rw [List.chain'_append]
        refine ⟨h1vtk.1, ?_, ?_⟩
        · rw [List.chain'_cons']
          refine ⟨?_, ihv.1⟩
          intro b hb
          have := headLink_of_LB ihlb b hb
          exact le_trans (le_refl _) this
        · intro x hx y hy
          simp only [List.head?_cons, Option.mem_def, Option.some.injEq] at hy
          subst hy
          exact le_trans (h1endtk x (mem_of_getLast' hx)) (le_refl _)
      · intro x hx
        rcases List.mem_append.mp hx with hx1 | hx2
        · exact h1vtk.2 x hx1
        · rcases List.mem_cons.mp hx2 with rfl | hx3
          · exact h2ge
          · exact ihv.2 x hx3
    · intro x hx
      rcases List.mem_append.mp hx with hx1 | hx2
      · exact h1lbtk x hx1
      · rcases List.mem_cons.mp hx2 with rfl | hx3
        · exact h1ge
        · exact le_trans (le_trans h1ge h2ge) (ihlb x hx3)

theorem combineFrags_sem (S : List Fragment) : ∀ (R : List Fragment) (roff soff : Nat)
    (t T : List Nat),
    ValidFrags R → LB roff R → EndsLe R t.length →
    ValidFrags S → LB soff S → EndsLe S T.length →
    soff ≤ T.length → roff ≤ t.length →
    T.drop soff = applyT t roff R →
    applyT t roff (combineFrags R S ((soff : Int) - roff)) = applyT T soff S ∧
    EndsLe (combineFrags R S ((soff : Int) - roff)) t.length := by
  induction S with
  | nil =>
    intro R roff soff t T _ _ hends _ _ _ _ _ hHT
    exact ⟨hHT.symm, hends⟩
  | cons f S' ihS =>
    intro R roff soff t T hvR hlbR hendsR hvS hlbS hendsS hsT hrt hHT
    have hf_lb : soff ≤ f.start := hlbS f (List.mem_cons_self f S')
    have hf_wf : f.start ≤ f.«end» := hvS.headWF
    have hlbS' : LB f.«end» S' := hvS.lb
    have hf_endT : f.«end» ≤ T.length := hendsS f (List.mem_cons_self f S')
    have hendsS' : EndsLe S' T.length := fun x hx => hendsS x (List.mem_cons_of_mem f hx)
    rcases h1 : takeFrags R f.start ((soff : Int) - roff) with ⟨tk, R1, before⟩
    obtain ⟨h1x, h1ge, h1vtk, h1lbtk, h1endtk, h1cur, h1vR1, h1lbR1, h1pres⟩ :=
      takeFrags_struct R roff soff f.start tk R1 before hvR hlbR hf_lb h1
    obtain ⟨s1A, s1B, s1C⟩ := takeFrags_sem R roff soff f.start t T tk R1 before
      hvR hlbR hendsR hf_lb (le_trans hf_wf hf_endT) hrt hHT h1
    have hendsR1 : EndsLe R1 t.length := (h1pres t.length hendsR).2
    have hbe : before = ((f.start : Nat) : Int) - ((adjust f.start before : Nat) : Int) := by
      omega
    rcases h2 : takeFrags R1 f.«end» before with ⟨sk, R2, after⟩
    have h2' := h2
    rw [hbe] at h2'
    obtain ⟨h2x, h2ge, -, -, -, -, h2vR2, h2lbR2, h2pres⟩ :=
      takeFrags_struct R1 (adjust f.start before) f.start f.«end» sk R2 after
        h1vR1 h1lbR1 hf_wf h2'
    obtain ⟨s2A, -, s2C⟩ := takeFrags_sem R1 (adjust f.start before) f.start f.«end» t T
      sk R2 after h1vR1 h1lbR1 hendsR1 hf_wf hf_endT s1C s1A h2'
    have hendsR2 : EndsLe R2 t.length := (h2pres t.length hendsR1).2
    have haf : after = ((f.«end» : Nat) : Int) - ((adjust f.«end» after : Nat) : Int) := by
      omega
    obtain ⟨ihEq, ihEnds⟩ := ihS R2 (adjust f.«end» after) f.«end» t T h2vR2 h2lbR2
      hendsR2 hvS.tail hlbS' hendsS' hf_endT s2C s2A
    rw [← haf] at ihEq ihEnds
    have hout_eq : combineFrags R (f :: S') ((soff : Int) - roff) =
        tk ++ ({ start := adjust f.start before, «end» := adjust f.«end» after,
                 content := f.content } : Fragment) :: combineFrags R2 S' after := by
      simp only [combineFrags, h1, h2]
    rw [hout_eq]
    constructor
    · rw [applyT_append]
      simp only [applyT]
      rw [ihEq]
      simp only [← List.append_assoc]
      rw [s1B]
    · intro x hx
      rcases List.mem_append.mp hx with hx1 | hx2
      · exact (h1pres t.length hendsR).1 x hx1
      · rcases List.mem_cons.mp hx2 with rfl | hx3
        · exact s2C
        · exact ihEnds x hx3

/-- Shared soundness core for `combine`: composing two valid, in-bounds
Deltas gives a Delta that applies like the two in sequence, is again
valid, and stays in-bounds for the base text. -/
theorem combine_ok (t t1 : List Nat) (d1 d2 : Delta)
    (h1 : ValidDelta d1) (h2 : ValidDelta d2)
    (hb1 : InBounds d1 t) (ha : apply t d1 = some t1) (hb2 : InBounds d2 t1) :
    apply t (combine d1 d2) = apply t1 d2 ∧
    ValidDelta (combine d1 d2) ∧ InBounds (combine d1 d2) t := by
  have hlb1 : LB 0 d1.frags := fun f _ => Nat.zero_le _
  have hlb2 : LB 0 d2.frags := fun f _ => Nat.zero_le _
  rw [apply, applyFrags_eq_applyT t d1.frags 0 h1 hlb1] at ha
  have ht1 : t1 = applyT t 0 d1.frags := ((Option.some.injEq _ _).mp ha).symm
  have hdrop : t1.drop 0 = applyT t 0 d1.frags := by rw [List.drop_zero, ht1]
  have hsem := combineFrags_sem d2.frags d1.frags 0 0 t t1 h1 hlb1 hb1 h2 hlb2 hb2
    (Nat.zero_le _) (Nat.zero_le _) hdrop
  have hstr := combineFrags_struct d2.frags d1.frags 0 0 h1 hlb1 h2 hlb2
  norm_num at hsem hstr
  refine ⟨?_, hstr.1, hsem.2⟩
  show applyFrags t 0 (combineFrags d1.frags d2.frags 0) = applyFrags t1 0 d2.frags
  rw [applyFrags_eq_applyT t _ 0 hstr.1 hstr.2,
    applyFrags_eq_applyT t1 d2.frags 0 h2 hlb2, hsem.1]

/-- Claim C1: composition soundness — for a base text `t`, a valid Delta
`d1` in-bounds for `t`, and a valid Delta `d2` in-bounds for
`apply(t, d1)`, applying `combine(d1, d2)` to `t` equals applying `d1`
then `d2`. -/
theorem composition_soundness (t t1 : List Nat) (d1 d2 : Delta)
    (h1 : ValidDelta d1) (h2 : ValidDelta d2)
    (hb1 : InBounds d1 t) (ha : apply t d1 = some t1) (hb2 : InBounds d2 t1) :
    apply t (combine d1 d2) = apply t1 d2 :=
  (combine_ok t t1 d1 d2 h1 h2 hb1 ha hb2).1

theorem composition_soundness_witness :
    apply [1,2] (combine ⟨[Fragment.mk 0 1 [7,8]]⟩ ⟨[Fragment.mk 1 2 [9]]⟩) =
    apply [7,8,2] ⟨[Fragment.mk 1 2 [9]]⟩ :=
  composition_soundness [1,2] [7,8,2] ⟨[Fragment.mk 0 1 [7,8]]⟩ ⟨[Fragment.mk 1 2 [9]]⟩
    (by decide) (by decide) (by decide) (by decide) (by decide)

/-- Claim C3: `combine` of two valid Deltas again satisfies all Delta
invariants (sorted, non-overlapping, each fragment `start ≤ end`); no
mutual well-formedness assumption beyond validity of each input is even
needed. -/
theorem combine_preserves_invariants (d1 d2 : Delta)
    (h1 : ValidDelta d1) (h2 : ValidDelta d2) : ValidDelta (combine d1 d2) := by
  have h := combineFrags_struct d2.frags d1.frags 0 0 h1 (fun f _ => Nat.zero_le _)
    h2 (fun f _ => Nat.zero_le _)
  norm_num at h
  exact h.1

theorem combine_preserves_invariants_witness :
    ValidDelta (combine ⟨[Fragment.mk 3 6 [1,2,3,4,5], Fragment.mk 8 16 [6,7,8,9]]⟩
      ⟨[Fragment.mk 7 12 [10,11,12,13]]⟩) :=
  combine_preserves_invariants
    ⟨[Fragment.mk 3 6 [1,2,3,4,5], Fragment.mk 8 16 [6,7,8,9]]⟩
    ⟨[Fragment.mk 7 12 [10,11,12,13]]⟩ (by decide) (by decide)

/-- Claim C7: associativity of composition up to behaviour — for valid
Deltas applied in sequence to an in-bounds base text, the two
associations of `combine` apply identically. -/
theorem combine_assoc (t t1 t2 : List Nat) (d1 d2 d3 : Delta)
    (h1 : ValidDelta d1) (h2 : ValidDelta d2) (h3 : ValidDelta d3)
    (hb1 : InBounds d1 t) (ha1 : apply t d1 = some t1)
    (hb2 : InBounds d2 t1) (ha2 : apply t1 d2 = some t2) (hb3 : InBounds d3 t2) :
    apply t (combine (combine d1 d2) d3) = apply t (combine d1 (combine d2 d3)) := by
  obtain ⟨e12, v12, b12⟩ := combine_ok t t1 d1 d2 h1 h2 hb1 ha1 hb2
  have ha12 : apply t (combine d1 d2) = some t2 := by rw [e12, ha2]
  obtain ⟨eL, -, -⟩ := combine_ok t t2 (combine d1 d2) d3 v12 h3 b12 ha12 hb3
  obtain ⟨e23, v23, b23⟩ := combine_ok t1 t2 d2 d3 h2 h3 hb2 ha2 hb3
  obtain ⟨eR, -, -⟩ := combine_ok t t1 d1 (combine d2 d3) h1 v23 hb1 ha1 b23
  rw [eL, eR, e23]

theorem combine_assoc_witness :
    apply [1,2,3] (combine (combine ⟨[Fragment.mk 0 1 [7]]⟩ ⟨[Fragment.mk 1 2 [8,9]]⟩)
      ⟨[Fragment.mk 2 4 [5]]⟩) =
    apply [1,2,3] (combine ⟨[Fragment.mk 0 1 [7]]⟩
      (combine ⟨[Fragment.mk 1 2 [8,9]]⟩ ⟨[Fragment.mk 2 4 [5]]⟩)) :=
  combine_assoc [1,2,3] [7,2,3] [7,8,9,3] ⟨[Fragment.mk 0 1 [7]]⟩
    ⟨[Fragment.mk 1 2 [8,9]]⟩ ⟨[Fragment.mk 2 4 [5]]⟩
    (by decide) (by decide) (by decide) (by decide) (by decide)
    (by decide) (by decide) (by decide)

/-! ### Claim theorems: fragment-level and easy Delta-level claims -/

/-- Claim C4: `Fragment::split` returns no tail (fragment unmodified) when
`at` falls outside `[start, post_end)` in post-apply coordinates, and
otherwise shortens the head to `end = min(old_end, at)` with content
truncated to its first `at - start` bytes and returns a tail
`{min(old_end, at), old_end, remaining bytes}`; in particular the grow
fragment `{10,15,[1..10]}` splits at 17 into `{10,15,[1..7]}` and
`{15,15,[8,9,10]}`. -/
theorem fragment_split_spec :
    (∀ (f : Fragment) (a : Nat), f.start ≤ f.«end» →
      (¬ f.containsOffset a → f.split a = none) ∧
      (f.containsOffset a →
        f.split a = some
          ({ start := f.start, «end» := min f.«end» a,
             content := f.content.take (a - f.start) },
           { start := min f.«end» a, «end» := f.«end»,
             content := f.content.drop (a - f.start) }))) ∧
    (Fragment.split ⟨10, 15, [1,2,3,4,5,6,7,8,9,10]⟩ 17 =
       some (⟨10, 15, [1,2,3,4,5,6,7]⟩, ⟨15, 15, [8,9,10]⟩)) := by
  refine ⟨fun f a _ => ⟨fun h => ?_, fun h => ?_⟩, by decide⟩
  · rw [Fragment.split, if_neg h]
  · rw [Fragment.split, if_pos h]

theorem fragment_split_spec_witness :
    ((Fragment.mk 10 20 [1,2,3,4,5]).split 17 = none) ∧
    ((Fragment.mk 10 20 [1,2,3,4,5]).split 12 =
      some (Fragment.mk 10 12 [1,2], Fragment.mk 12 20 [3,4,5])) := by
  constructor
  · exact (fragment_split_spec.1 (Fragment.mk 10 20 [1,2,3,4,5]) 17 (by decide)).1
      (by decide)
  · exact ((fragment_split_spec.1 (Fragment.mk 10 20 [1,2,3,4,5]) 12 (by decide)).2
      (by decide)).trans (by decide)

/-- Claim C10: a pure-deletion fragment (empty content) has
`post_end = start`, so it contains no offset and `split` always returns
`none`, leaving it unmodified. -/
theorem pure_deletion_no_split (f : Fragment) (h : f.content = []) :
    (∀ o, ¬ f.containsOffset o) ∧ (∀ a, f.split a = none) := by
  have hnc : ∀ o, ¬ f.containsOffset o := by
    intro o hc
    have hc' : f.start ≤ o ∧ o < f.postEnd := hc
    rw [Fragment.postEnd, h] at hc'
    simp at hc'
    omega
  exact ⟨hnc, fun a => by rw [Fragment.split, if_neg (hnc a)]⟩

theorem pure_deletion_no_split_witness :
    (¬ (Fragment.mk 3 5 []).containsOffset 4) ∧ (Fragment.mk 3 5 []).split 7 = none :=
  ⟨(pure_deletion_no_split (Fragment.mk 3 5 []) rfl).1 4,
   (pure_deletion_no_split (Fragment.mk 3 5 []) rfl).2 7⟩

/-- Claim C5: splitting a fragment and applying head then tail (as a
two-fragment Delta) to a base text on which the fragment is in-bounds
gives the same result as applying the fragment alone. -/
theorem split_round_trip (f head tail : Fragment) (a : Nat) (t : List Nat)
    (_hwf : f.start ≤ f.«end») (_hb : f.«end» ≤ t.length)
    (hc : f.containsOffset a) (hs : f.split a = some (head, tail)) :
    apply t ⟨[head, tail]⟩ = apply t ⟨[f]⟩ := by
  rw [Fragment.split, if_pos hc] at hs
  simp only [Option.some.injEq, Prod.mk.injEq] at hs
  obtain ⟨hh, ht⟩ := hs
  subst hh; subst ht
  simp only [apply, applyFrags, Nat.zero_le, if_pos, le_refl, Option.map_map,
    Option.map_some', seg_self]
  simp only [Option.some.injEq, List.nil_append, List.append_assoc]
  rw [← List.append_assoc (List.take (a - f.start) f.content), List.take_append_drop]

theorem split_round_trip_witness :
    apply [0,0,0,0,0,0,0,0,0,0,0,0,0,0,0,0,0,0,0,0]
      ⟨[Fragment.mk 10 12 [1,2], Fragment.mk 12 20 [3,4,5]]⟩ =
    apply [0,0,0,0,0,0,0,0,0,0,0,0,0,0,0,0,0,0,0,0]
      ⟨[Fragment.mk 10 20 [1,2,3,4,5]]⟩ :=
  split_round_trip (Fragment.mk 10 20 [1,2,3,4,5]) (Fragment.mk 10 12 [1,2])
    (Fragment.mk 12 20 [3,4,5]) 12 _ (by decide) (by decide) (by decide) (by decide)

/-- Claim C6: the empty Delta is a two-sided identity: applying it
returns the text unchanged, and it is a left and right identity of
`combine`. -/
theorem empty_delta_identity :
    (∀ t : List Nat, apply t Delta.default = some t) ∧
    (∀ d : Delta, ValidDelta d → combine d Delta.default = d ∧ combine Delta.default d = d) := by
  refine ⟨fun t => rfl, fun d _ => ⟨rfl, ?_⟩⟩
  show (⟨combineFrags [] d.frags 0⟩ : Delta) = d
  have hgen : ∀ S : List Fragment, combineFrags [] S 0 = S := by
    intro S
    induction S with
    | nil => rfl
    | cons f fs ih => simp [combineFrags, takeFrags, adjust, ih]
  exact congrArg Delta.mk (hgen d.frags)

theorem empty_delta_identity_witness :
    apply [1,2,3] Delta.default = some [1,2,3] ∧
    (combine ⟨[Fragment.mk 1 2 [5]]⟩ Delta.default = ⟨[Fragment.mk 1 2 [5]]⟩ ∧
     combine Delta.default ⟨[Fragment.mk 1 2 [5]]⟩ = ⟨[Fragment.mk 1 2 [5]]⟩) :=
  ⟨empty_delta_identity.1 [1,2,3],
   empty_delta_identity.2 ⟨[Fragment.mk 1 2 [5]]⟩ (by decide)⟩

/-- Claim C9: for a valid Delta the cursor invariant `off ≤ frag.start`
holds at every fragment processed by `apply`, so the assertion (the
`none` branch of this embedding) is unreachable: `apply` always returns
`some`. -/
theorem apply_cursor_safety (t : List Nat) (d : Delta) (hv : ValidDelta d) :
    (apply t d).isSome := by
  rw [apply, applyFrags_eq_applyT t d.frags 0 hv (fun f _ => Nat.zero_le _)]
  rfl

theorem apply_cursor_safety_witness :
    (apply [1,2] ⟨[Fragment.mk 0 1 [3]]⟩).isSome :=
  apply_cursor_safety [1,2] ⟨[Fragment.mk 0 1 [3]]⟩ (by decide)

/-- Claim C8: for a valid, in-bounds Delta, the length of the applied
result is the text length plus the sum of the fragments' length
changes. -/
theorem length_change_accuracy (t r : List Nat) (d : Delta) (hv : ValidDelta d)
    (hb : InBounds d t) (ha : apply t d = some r) :
    (r.length : Int) = t.length + lcSum d.frags := by
  rw [apply, applyFrags_eq_applyT t d.frags 0 hv (fun f _ => Nat.zero_le _)] at ha
  obtain rfl := (Option.some.injEq _ _).mp ha
  have h := applyT_length t d.frags 0 hv (fun f _ => Nat.zero_le _) hb (Nat.zero_le _)
  omega

theorem validFrags_cons_iff {f : Fragment} {l : List Fragment} :
    ValidFrags (f :: l) ↔
      f.start ≤ f.«end» ∧ ValidFrags l ∧ HeadLink f.«end» l := by
  constructor
  · intro hv
    exact ⟨hv.headWF, hv.tail, fun h hh => (List.chain'_cons'.mp hv.1).1 h hh⟩
  · rintro ⟨h1, h2, h3⟩
    exact validFrags_cons h1 h2 (fun h hh => h3 h hh)

theorem head_take {l : List Fragment} {k : Nat} {h : Fragment}
    (hh : (l.take k).head? = some h) : l.head? = some h := by
  cases k with
  | zero => simp at hh
  | succ k => cases l with
    | nil => simp at hh
    | cons x xs => simpa using hh

theorem verifyFrom_ok (F : List Fragment) : ∀ (prev : Option Fragment) (i : Nat),
    Delta.verifyFrom prev i F = Except.ok () ↔ (ValidFrags F ∧ PrevLink prev F) := by
  induction F with
  | nil =>
    intro prev i
    constructor
    · intro _
      exact ⟨validFrags_nil, fun p _ h hh => by simp at hh⟩
    · intro _; rfl
  | cons f fs ih =>
    intro prev i
    unfold Delta.verifyFrom
    by_cases hfe : f.«end» < f.start
    · rw [if_pos hfe]
      constructor
      · intro h; exact absurd h (by simp)
      · rintro ⟨hv, -⟩; exact absurd hv.headWF (by omega)
    · rw [if_neg hfe]
      have hge : f.start ≤ f.«end» := Nat.le_of_not_lt hfe
      cases prev with
      | none =>
        rw [ih (some f) (i + 1)]
        constructor
        · rintro ⟨hv, hlink⟩
          refine ⟨validFrags_cons hge hv (fun h hh => hlink f rfl h hh), ?_⟩
          intro p hp; cases hp
        · rintro ⟨hv, -⟩
          refine ⟨hv.tail, ?_⟩
          intro p hp; cases hp
          exact fun h hh => (List.chain'_cons'.mp hv.1).1 h hh
      | some p =>
        dsimp only
        by_cases hsp : f.start < p.«end»
        · rw [if_pos hsp]
          constructor
          · intro h; exact absurd h (by simp)
          · rintro ⟨-, hlink⟩
            have := hlink p rfl f rfl
            omega
        · rw [if_neg hsp]
          rw [ih (some f) (i + 1)]
          constructor
          · rintro ⟨hv, hlink⟩
            refine ⟨validFrags_cons hge hv (fun h hh => hlink f rfl h hh), ?_⟩
            intro q hq; cases hq
            intro h hh
            simp only [List.head?_cons, Option.some.injEq] at hh
            subst hh
            omega
          · rintro ⟨hv, -⟩
            refine ⟨hv.tail, ?_⟩
            intro q hq; cases hq
            exact fun h hh => (List.chain'_cons'.mp hv.1).1 h hh

theorem verifyFrom_err (F : List Fragment) : ∀ (prev : Option Fragment) (i : Nat)
    (e : VerifyError), Delta.verifyFrom prev i F = Except.error e → ErrAt prev i F e := by
  induction F with
  | nil =>
    intro prev i e h
    simp [Delta.verifyFrom] at h
  | cons f fs ih =>
    intro prev i e h
    unfold Delta.verifyFrom at h
    by_cases hfe : f.«end» < f.start
    · rw [if_pos hfe] at h
      simp only [Except.error.injEq] at h
      subst h
      refine ⟨le_refl i, by simpa using validFrags_nil, ?_, fun hne => absurd rfl hne⟩
      exact ⟨f, by simp, hfe⟩
    · rw [if_neg hfe] at h
      have hge : f.start ≤ f.«end» := Nat.le_of_not_lt hfe
      have step : ∀ (hrec : Delta.verifyFrom (some f) (i + 1) fs = Except.error e)
          (hpl : PrevLink prev (f :: fs)), ErrAt prev i (f :: fs) e := by
        intro hrec hpl
        have hErr := ih (some f) (i + 1) e hrec
        cases e with
        | invalidFragment j =>
          obtain ⟨hij, hvt, ⟨g, hg, hbad⟩, hpl'⟩ := hErr
          have hji : j - i = (j - (i + 1)) + 1 := by omega
          refine ⟨by omega, ?_, ?_, fun _ => hpl⟩
          · rw [hji, List.take_succ_cons]
            refine validFrags_cons hge hvt ?_
            intro h2 hh2
            have hh3 := head_take hh2
            rcases Nat.eq_or_lt_of_le hij with heq | hlt
            · rw [← heq] at hh2
              simp at hh2
            · have := hpl' (by omega) f rfl h2 hh3
              exact this
          · exact ⟨g, by rw [hji]; simpa using hg, hbad⟩
        | overlap j pe s =>
          obtain ⟨hij, hvt, ⟨g, hg, hs, hwfg, hspe⟩, hpl', hpart⟩ := hErr
          have hji : j - i = (j - (i + 1)) + 1 := by omega
          refine ⟨by omega, ?_, ?_, fun _ => hpl, ?_⟩
          · rw [hji, List.take_succ_cons]
            refine validFrags_cons hge hvt ?_
            intro h2 hh2
            have hh3 := head_take hh2
            rcases Nat.eq_or_lt_of_le hij with heq | hlt
            · rw [← heq] at hh2
              simp at hh2
            · exact hpl' (by omega) f rfl h2 hh3
          · exact ⟨g, by rw [hji]; simpa using hg, hs, hwfg, hspe⟩
          · rw [if_neg (by omega)]
            by_cases hj1 : j = i + 1
            · rw [if_pos hj1] at hpart
              obtain ⟨p, hp, hpe⟩ := hpart
              cases hp
              refine ⟨f, ?_, hpe⟩
              have : j - 1 - i = 0 := by omega
              rw [this]; simp
            · rw [if_neg hj1] at hpart
              obtain ⟨p, hp, hpe⟩ := hpart
              refine ⟨p, ?_, hpe⟩
              have h4 : j - 1 - i = (j - 1 - (i + 1)) + 1 := by omega
              rw [h4]; simpa using hp
      cases prev with
      | none =>
        exact step h (fun p hp => by cases hp)
      | some p =>
        dsimp only at h
        by_cases hsp : f.start < p.«end»
        · rw [if_pos hsp] at h
          simp only [Except.error.injEq] at h
          subst h
          refine ⟨le_refl i, by simpa using validFrags_nil, ?_, fun hne => absurd rfl hne, ?_⟩
          · exact ⟨f, by simp, rfl, hge, hsp⟩
          · rw [if_pos rfl]
            exact ⟨p, rfl, rfl⟩
        · rw [if_neg hsp] at h
          refine step h ?_
          intro q hq; cases hq
          intro h2 hh2
          simp only [List.head?_cons, Option.some.injEq] at hh2
          subst hh2
          omega

/-- Claim C2: `Delta::new(F)` succeeds exactly when `F` is sorted,
non-overlapping and every fragment has `start ≤ end`; on failure the
structured error names the zero-based index of the first offending
fragment and the reason (`start > end`, or the previous end overlapping
the next start). -/
theorem delta_new_spec (F : List Fragment) :
    ((∃ d, Delta.new F = Except.ok d ∧ d.frags = F) ↔ ValidFrags F) ∧
    (∀ e, Delta.new F = Except.error e → ErrSpec F e) := by
  constructor
  · constructor
    · rintro ⟨d, hd, -⟩
      rcases hok : Delta.verifyFrom none 0 F with err | u
      · rw [Delta.new, Delta.verify, hok] at hd
        simp [Except.map] at hd
      · cases u
        exact ((verifyFrom_ok F none 0).mp hok).1
    · intro hv
      have hok : Delta.verifyFrom none 0 F = Except.ok () :=
        (verifyFrom_ok F none 0).mpr ⟨hv, fun p hp => by cases hp⟩
      refine ⟨⟨F⟩, ?_, rfl⟩
      rw [Delta.new, Delta.verify, hok]
      rfl
  · intro e he
    rw [Delta.new, Delta.verify] at he
    rcases hok : Delta.verifyFrom none 0 F with err | u
    · rw [hok] at he
      simp only [Except.map, Except.error.injEq] at he
      subst he
      have hErr := verifyFrom_err F none 0 _ hok
      cases err with
      | invalidFragment j =>
        obtain ⟨-, hvt, hex, -⟩ := hErr
        exact ⟨by simpa using hvt, by simpa using hex⟩
      | overlap j pe s =>
        obtain ⟨-, hvt, hex, -, hpart⟩ := hErr
        have hj : j ≠ 0 := by
          intro h0
          rw [if_pos h0] at hpart
          obtain ⟨p, hp, -⟩ := hpart
          cases hp
        rw [if_neg hj] at hpart
        refine ⟨by omega, by simpa using hvt, ?_, by simpa using hex⟩
        simpa using hpart
    · rw [hok] at he
      simp [Except.map] at he

theorem delta_new_spec_witness :
    ValidFrags [Fragment.mk 0 5 [], Fragment.mk 5 8 []] ∧
    ErrSpec [Fragment.mk 0 5 [], Fragment.mk 6 5 []] (VerifyError.invalidFragment 1) ∧
    ErrSpec [Fragment.mk 0 5 [], Fragment.mk 4 8 []] (VerifyError.overlap 1 5 4) := by
  refine ⟨?_, ?_, ?_⟩
  · exact (delta_new_spec [Fragment.mk 0 5 [], Fragment.mk 5 8 []]).1.mp
      ⟨⟨[Fragment.mk 0 5 [], Fragment.mk 5 8 []]⟩, rfl, rfl⟩
  · exact (delta_new_spec [Fragment.mk 0 5 [], Fragment.mk 6 5 []]).2
      (VerifyError.invalidFragment 1) rfl
  · exact (delta_new_spec [Fragment.mk 0 5 [], Fragment.mk 4 8 []]).2
      (VerifyError.overlap 1 5 4) rfl

theorem length_change_accuracy_witness :
    ((3 : Nat) : Int) = ([1,2,3,4] : List Nat).length + lcSum [Fragment.mk 1 3 [9]] := by
  have h := length_change_accuracy [1,2,3,4] [1,9,4] ⟨[Fragment.mk 1 3 [9]]⟩
    (by decide) (by decide) (by decide)
  simpa using h

end Mononoke
